import Mathlib

/-!
Verification of the Mt-KaHyPar partitioning core against its specification.

The development shallowly embeds the parts of the code base that the
checked properties are about:

* the C-style library interface (`mt_kahypar_set_context_parameter`,
  `mt_kahypar_context_free`, `mt_kahypar_partition`),
* the partitioned hypergraph with its concurrent move protocol
  (`changeNodePart`, `setOnlyNodePart`, `initializePartition`, `extract`),
* the dynamic incident-net structure (`contract` / `uncontract`),
* the label-propagation refiner (`refineImpl` with the km1 delta hook),
  and
* the refinement time limit of the uncoarsener.

Machine integers are modelled as `Int` (the C code uses 32/64-bit signed
integers and the checked scenarios stay far away from overflow); the
C doubles appearing in the time-limit computation are modelled as exact
rationals.
-/

namespace MtKaHyPar

/-! ## Hypergraph model

A hypergraph is a number of vertices `0 .. n-1`, a vertex-weight function
and a list of hyperedges, each carrying an integer weight and its pin
list.  This mirrors the construction interface of
`HypergraphFactory::construct` (vertex weights, edge weights, edge
vector). -/

structure Hypergraph where
  n : Nat
  w : Nat → Int
  edges : List (Int × List Nat)

namespace Hypergraph

/-- Number of hyperedges. -/

def m (H : Hypergraph) : Nat := H.edges.length

/-- Pin list of hyperedge `i` (empty for an out-of-range index). -/

def pins (H : Hypergraph) (i : Nat) : List Nat := ((H.edges.getD i (0, [])).2)

/-- Weight of hyperedge `i`. -/

def ew (H : Hypergraph) (i : Nat) : Int := ((H.edges.getD i (0, [])).1)

/-- Size `|e|` of hyperedge `i` as an integer. -/

def esize (H : Hypergraph) (i : Nat) : Int := (H.pins i).length

/-- Total vertex weight `W`. -/

def totalWeight (H : Hypergraph) : Int :=
  (Finset.range H.n).sum fun v => H.w v

/-- Well-formedness, as stated in the data-model section of the spec:
pins are pairwise distinct vertices of the hypergraph, weights are
positive. -/

def WF (H : Hypergraph) : Prop :=
  (∀ i < H.m, (H.pins i).Nodup ∧ ∀ v ∈ H.pins i, v < H.n) ∧
  (∀ v < H.n, 0 < H.w v)

end Hypergraph

/-! ## Partition state

The partitioned hypergraph keeps, next to the block assignment `b`, the
incrementally maintained derived quantities: block weights, pin counts
per (edge, block), connectivity sets and the per-vertex number of
incident cut hyperedges.  Block identifiers are kept as naturals
(`0 .. k-1`); the C code stores them in a signed 32-bit integer but all
checked scenarios use valid block ids only. -/

structure PartState where
  b : Nat → Nat
  pw : Nat → Int
  pc : Nat → Nat → Int
  conn : Nat → Finset Nat
  nic : Nat → Int

/-! ### Derived state as a pure function of the assignment -/

/-- pinCount[e][p] as a pure function of the assignment: the number of
pins of hyperedge `i` lying in block `p`. -/

def pinCountSpec (H : Hypergraph) (b : Nat → Nat) (i p : Nat) : Int :=
  ((H.pins i).countP fun v => b v = p)

/-- Connectivity set of hyperedge `i` as a pure function of the
assignment: the blocks among `0 .. k-1` with a positive pin count. -/

def connSpec (H : Hypergraph) (k : Nat) (b : Nat → Nat) (i : Nat) : Finset Nat :=
  (Finset.range k).filter fun p => 0 < pinCountSpec H b i p

/-- Block weight as a pure function of the assignment. -/

def partWeightSpec (H : Hypergraph) (b : Nat → Nat) (p : Nat) : Int :=
  (Finset.range H.n).sum fun v => if b v = p then H.w v else 0

/-- Number of incident cut hyperedges of a vertex as a pure function of
the assignment. -/

def nicSpec (H : Hypergraph) (k : Nat) (b : Nat → Nat) (u : Nat) : Int :=
  (Finset.range H.m).sum fun i =>
    if u ∈ H.pins i ∧ 2 ≤ (connSpec H k b i).card then 1 else 0

/-- The state whose derived quantities are recomputed from scratch from
the assignment.  `initializePartition` materialises exactly this
state. -/

def specState (H : Hypergraph) (k : Nat) (b : Nat → Nat) : PartState where
  b := b
  pw := partWeightSpec H b
  pc := pinCountSpec H b
  conn := connSpec H k b
  nic := nicSpec H k b

/-- Modelled from the spec: `setOnlyNodePart(v, p)` records the block of
`v` without touching any derived state (the implementation of
`PartitionedHypergraph` is not part of the source extract; the spec
describes it as a pre-initialization bulk assignment). -/

def setOnlyNodePart (v p : Nat) (st : PartState) : PartState :=
  { st with b := Function.update st.b v p }

/-- Modelled from the spec: `initializePartition()` recomputes all
derived state from the block assignment. -/

def initializePartition (H : Hypergraph) (k : Nat) (st : PartState) : PartState :=
  specState H k st.b

/-- Bulk assignment: `setOnlyNodePart` for every vertex according to an
assignment list `(vertex, block)`. -/

def setOnlyNodeParts (assignment : List (Nat × Nat)) (st : PartState) : PartState :=
  assignment.foldl (fun s vp => setOnlyNodePart vp.1 vp.2 s) st

/-! ### The concurrent move protocol

Modelled from the spec (section 4.1, "Concurrent move protocol"); the
implementation of `PartitionedHypergraph::changeNodePart` is not part of
the source extract.  The model follows the protocol steps:

1. admission gate: if `partWeight[to] + w(v) > cap`, return `false` with
   the state unchanged;
2. the part-id compare-and-swap: a call whose `from` does not match the
   current block of `v` fails and reverts (this is how exactly one of two
   concurrent movers of the same vertex wins); a move with `from = to`
   is excluded by the caller contract (debug assertion) and rejected;
3. for every incident hyperedge, the pin count of `from` is decremented
   (removing `from` from the connectivity set when it reaches 0) and the
   pin count of `to` is incremented (inserting `to` when it reaches 1);
4. the border-node counters of all pins of an incident edge are
   incremented when the edge turns cut (pin count in `from` drops to
   `|e| - 1`) and decremented when it turns uncut (pin count in `to`
   reaches `|e|`).

Each loop iteration of step 3/4 touches disjoint per-edge counters and
adds to shared per-vertex counters, so the state after the loop is
described pointwise. -/

/-- Result of one `changeNodePart` call: success flag, new state, and the
list of delta-hook invocations `(e, ω(e), |e|, pin count in from after,
pin count in to after)` in incident-edge order. -/

def changeNodePart (H : Hypergraph) (v from_ to_ : Nat) (cap : Int) (st : PartState) :
    Bool × PartState × List (Nat × Int × Int × Int × Int) :=
  if st.pw to_ + H.w v > cap then (false, st, [])
  else if st.b v ≠ from_ ∨ from_ = to_ then (false, st, [])
  else
    let st' : PartState :=
      { b := Function.update st.b v to_
        pw := fun p => st.pw p + (if p = to_ then H.w v else 0) -
          (if p = from_ then H.w v else 0)
        pc := fun i p =>
          if v ∈ H.pins i then
            st.pc i p + (if p = to_ then 1 else 0) - (if p = from_ then 1 else 0)
          else st.pc i p
        conn := fun i =>
          if v ∈ H.pins i then
            let s1 := if st.pc i from_ - 1 = 0 then (st.conn i).erase from_ else st.conn i
            if st.pc i to_ + 1 = 1 then insert to_ s1 else s1
          else st.conn i
        nic := fun u =>
          st.nic u + (Finset.range H.m).sum fun i =>
            if v ∈ H.pins i ∧ u ∈ H.pins i then
              (if st.pc i from_ - 1 = H.esize i - 1 then 1 else 0) -
              (if st.pc i to_ + 1 = H.esize i then 1 else 0)
            else 0 }
    let hooks := ((List.range H.m).filter fun i => v ∈ H.pins i).map fun i =>
      (i, H.ew i, H.esize i, st.pc i from_ - 1, st.pc i to_ + 1)
    (true, st', hooks)

/-- Convenience projection: the state after a `changeNodePart` call. -/

def cnpState (H : Hypergraph) (v from_ to_ : Nat) (cap : Int) (st : PartState) : PartState :=
  (changeNodePart H v from_ to_ cap st).2.1

/-- Convenience projection: the success flag of a `changeNodePart` call. -/

def cnpOk (H : Hypergraph) (v from_ to_ : Nat) (cap : Int) (st : PartState) : Bool :=
  (changeNodePart H v from_ to_ cap st).1

/-- Applying a list of moves `(v, from, to, cap)` in order. -/

def applyMoves (H : Hypergraph) (moves : List (Nat × Nat × Nat × Int)) (st : PartState) :
    PartState :=
  moves.foldl (fun s mv => cnpState H mv.1 mv.2.1 mv.2.2.1 mv.2.2.2 s) st

/-! ## Objective metrics

Modelled from the spec's glossary (`metrics.cpp` is not part of the
source extract): the cut metric is the total weight of hyperedges
touching at least two blocks, and km1 is `Σ ω(e)·(λ(e)−1)` where `λ(e)`
is the number of blocks `e` touches. -/

/-- Connectivity `λ(e)` of hyperedge `i` under assignment `b`. -/

def lambdaSpec (H : Hypergraph) (k : Nat) (b : Nat → Nat) (i : Nat) : Int :=
  (connSpec H k b i).card

/-- The km1 (connectivity) metric `Σ ω(e)·(λ(e)−1)`. -/

def km1Metric (H : Hypergraph) (k : Nat) (b : Nat → Nat) : Int :=
  (Finset.range H.m).sum fun i => H.ew i * (lambdaSpec H k b i - 1)

/-- The hyperedge-cut metric `Σ_{λ(e) ≥ 2} ω(e)`. -/

def cutMetric (H : Hypergraph) (k : Nat) (b : Nat → Nat) : Int :=
  (Finset.range H.m).sum fun i => if 2 ≤ lambdaSpec H k b i then H.ew i else 0

/-! ## The maintained state is a pure function of the assignment

`Inv` says that the incrementally maintained quantities coincide with
their recomputation from the block assignment; it is established by
`initializePartition` and preserved by every `changeNodePart` call. -/

/-- All vertices carry a valid block id. -/

def Assigned (H : Hypergraph) (k : Nat) (b : Nat → Nat) : Prop :=
  ∀ v < H.n, b v < k

/-- The maintained derived state agrees with its pure recomputation. -/

def Inv (H : Hypergraph) (k : Nat) (st : PartState) : Prop :=
  (∀ p, st.pw p = partWeightSpec H st.b p) ∧
  (∀ i p, st.pc i p = pinCountSpec H st.b i p) ∧
  (∀ i, st.conn i = connSpec H k st.b i) ∧
  (∀ u, st.nic u = nicSpec H k st.b u)

instance decidableWF (H : Hypergraph) : Decidable H.WF := by
  unfold Hypergraph.WF
  infer_instance

instance decidableAssigned (H : Hypergraph) (k : Nat) (b : Nat → Nat) :
    Decidable (Assigned H k b) := by
  unfold Assigned
  infer_instance

/-- Maintained connectivity: the popcount of the connectivity bitset. -/

def connectivity (st : PartState) (i : Nat) : Nat := (st.conn i).card

/-- Maintained border-node predicate: a positive incident-cut count. -/

def isBorderNode (st : PartState) (v : Nat) : Prop := 0 < st.nic v

/-! ## The seven-vertex fixture (scenario 1 of the spec) -/

/-- The hypergraph of the seven-vertex fixture:
vertices 0..6 with unit weights, hyperedges
`[(0,2), (0,1,3,4), (3,4,6), (2,5,6)]`. -/

def fixtureH : Hypergraph where
  n := 7
  w := fun _ => 1
  edges := [(1, [0, 2]), (1, [0, 1, 3, 4]), (1, [3, 4, 6]), (1, [2, 5, 6])]

/-- A blank partition state. -/

def emptyState : PartState where
  b := fun _ => 0
  pw := fun _ => 0
  pc := fun _ _ => 0
  conn := fun _ => ∅
  nic := fun _ => 0

/-- Incident-net lists of the seven-vertex fixture. -/

def fixtureIncidentNets : Nat → List Nat := fun v =>
  match v with
  | 0 => [0, 1]
  | 1 => [1]
  | 2 => [0, 3]
  | 3 => [1, 2]
  | 4 => [1, 2]
  | 5 => [3]
  | 6 => [2, 3]
  | _ => []

/-- Scenario 1 bulk assignment `b = (0,0,0,1,1,2,2)`. -/

def fixtureAssign : List (Nat × Nat) :=
  [(0, 0), (1, 0), (2, 0), (3, 1), (4, 1), (5, 2), (6, 2)]

/-- The initialized scenario-1 state. -/

def fixtureState : PartState :=
  initializePartition fixtureH 3 (setOnlyNodeParts fixtureAssign emptyState)

/-! ## The label-propagation refiner (km1 gain policy)

`LabelPropagationRefiner::refineImpl` (in the source) accumulates the
objective delta of every committed move through the delta hook passed to
`changeNodePart` and returns `delta < 0`.  The km1 gain policy scores a
hook invocation `(e, ω, |e|, pin count in from after, pin count in to
after)` with `ω` when the target block is newly occupied and `-ω` when
the source block is emptied. -/

/-- Km1Policy::computeDeltaForHyperedge applied to one hook tuple. -/

def km1HookDelta (t : Nat × Int × Int × Int × Int) : Int :=
  t.2.1 * ((if t.2.2.2.2 = 1 then 1 else 0) - (if t.2.2.2.1 = 0 then 1 else 0))

/-- Accumulated delta over the hook invocations of one move. -/

def hookSum (hooks : List (Nat × Int × Int × Int × Int)) : Int :=
  (hooks.map km1HookDelta).sum

/-- The predicted km1 delta of moving `v` to block `to_`, computed from
the maintained pin counts by scanning the incident hyperedges (this is
what the refiner computes when proposing a move). -/

def deltaKm1 (H : Hypergraph) (st : PartState) (v to_ : Nat) : Int :=
  ((((List.range H.m).filter fun i => v ∈ H.pins i).map fun i =>
    H.ew i * ((if st.pc i to_ + 1 = 1 then 1 else 0) -
      (if st.pc i (st.b v) - 1 = 0 then 1 else 0))).sum)

/-- Modelled from the spec: `moveVertex` of the label-propagation
refiner computes the best target block for the vertex by scanning its
incident hyperedges, and attempts `changeNodePart` with the weight cap
when the proposed move does not worsen the objective (every accepted
move has non-negative gain, i.e. non-positive delta, at the moment it is
proposed); the delta hook accumulates the objective delta of committed
moves.  The implementation lives in the refiner header, which is not
part of the source extract. -/

def bestTarget (H : Hypergraph) (k : Nat) (st : PartState) (v : Nat) : Nat × Int :=
  ((List.range k).map fun p => (p, deltaKm1 H st v p)).foldl
    (fun best cand => if cand.2 < best.2 then cand else best) (st.b v, 0)

/-- One step of the sequential label-propagation loop over the active
nodes. -/

def moveVertex (H : Hypergraph) (k : Nat) (cap : Int) (acc : PartState × Int)
    (v : Nat) : PartState × Int :=
  if (bestTarget H k acc.1 v).2 ≤ 0 ∧ (bestTarget H k acc.1 v).1 ≠ acc.1.b v then
    if cnpOk H v (acc.1.b v) (bestTarget H k acc.1 v).1 cap acc.1 then
      (cnpState H v (acc.1.b v) (bestTarget H k acc.1 v).1 cap acc.1,
        acc.2 + hookSum
          (changeNodePart H v (acc.1.b v) (bestTarget H k acc.1 v).1 cap acc.1).2.2)
    else acc
  else acc

/-- The label-propagation refiner on a list of active nodes (the rounds
of the source concatenated into one sequence): it accumulates the delta
of the committed moves through the hook and reports an improvement
exactly when the delta is strictly negative, as in the source
`refineImpl`. -/

def refineImpl (H : Hypergraph) (k : Nat) (cap : Int) (active : List Nat)
    (st : PartState) : Bool × PartState × Int :=
  ((active.foldl (moveVertex H k cap) (st, 0)).2 < 0,
    active.foldl (moveVertex H k cap) (st, 0))

/-! ## The dynamic incident-net structure

Modelled from the spec: the dynamic hypergraph keeps the incident nets
of every vertex as per-vertex segments; `contract(u, v)` appends the
incident nets of `v` that the pair does not share (the shared ones are
passed as a flag array) to the list of `u`, and every contraction is
recorded so that `uncontract(v)` can unroll the appended segment
exactly.  The implementation (`IncidentNetArray`) is not part of the
source extract; its tests are. -/

structure IncidentNetArray where
  nets : Nat → List Nat
  stack : List (Nat × Nat × Nat)

/-- Contract `v` onto `u`: append the non-shared incident nets of `v` to
the segment of `u` and record the old segment length for reversal. -/

def IncidentNetArray.contract (a : IncidentNetArray) (u v : Nat)
    (shared : List Nat) : IncidentNetArray where
  nets := Function.update a.nets u
    (a.nets u ++ (a.nets v).filter fun e => e ∉ shared)
  stack := (u, v, (a.nets u).length) :: a.stack

/-- Uncontract the most recent contraction, which must concern `v`:
truncate the segment of the representative back to its recorded
length. -/

def IncidentNetArray.uncontract (a : IncidentNetArray) (v : Nat) : IncidentNetArray :=
  match a.stack with
  | [] => a
  | (u, v2, len) :: rest =>
    if v2 = v then
      { nets := Function.update a.nets u ((a.nets u).take len), stack := rest }
    else a

/-- Apply a list of contractions `(u, v, shared)` in order. -/

def contracts (a : IncidentNetArray) (ops : List (Nat × Nat × List Nat)) :
    IncidentNetArray :=
  ops.foldl (fun s op => s.contract op.1 op.2.1 op.2.2) a

/-- Apply a list of uncontractions in order. -/

def uncontracts (a : IncidentNetArray) (vs : List Nat) : IncidentNetArray :=
  vs.foldl IncidentNetArray.uncontract a

/-! ## Extracting a block

Modelled from the spec: `extract(block, split_cut_nets)` builds the
sub-hypergraph on exactly the vertices of the block and keeps either
(split = true) the projection onto the block of every hyperedge with at
least two pins there, or (split = false) only the hyperedges fully
contained in the block.  The implementation is not part of the source
extract; its tests are.  Vertices keep their original ids here (the id
mapping of the implementation is a mere compression of them). -/

/-- The vertices of the extracted block. -/

def extractVertices (H : Hypergraph) (b : Nat → Nat) (p : Nat) : List Nat :=
  (List.range H.n).filter fun v => b v = p

/-- The pin lists of the extracted sub-hypergraph. -/

def extractEdges (H : Hypergraph) (b : Nat → Nat) (p : Nat) (split : Bool) :
    List (List Nat) :=
  if split then
    ((H.edges.map fun e => e.2.filter fun v => b v = p).filter
      fun l => 2 ≤ l.length)
  else
    (H.edges.map fun e => e.2).filter fun l => ∀ v ∈ l, b v = p

/-- Total pin count of an extracted sub-hypergraph. -/

def extractNumPins (H : Hypergraph) (b : Nat → Nat) (p : Nat) (split : Bool) : Nat :=
  ((extractEdges H b p split).map List.length).sum

/-! ## The C library interface

`mt_kahypar_set_context_parameter`, `mt_kahypar_context_free` and
`mt_kahypar_partition` are part of the source extract
(`lib/libmtkahypar.cc`); `atoi`/`atof` follow the C standard library
behaviour (skip whitespace, optional sign, longest digit prefix, 0 when
no digits are found). -/

/-- Value of the longest digit prefix. -/

def digitsValue (cs : List Char) : Int :=
  (cs.takeWhile Char.isDigit).foldl (fun acc c => acc * 10 + (c.toNat - 48)) 0

/-- C `atoi`. -/

def atoi (s : String) : Int :=
  let cs := s.data.dropWhile fun c =>
    c = ' ' ∨ c = '\t' ∨ c = '\n' ∨ c = '\r' ∨ c = '\x0b' ∨ c = '\x0c'
  match cs with
  | '-' :: rest => - digitsValue rest
  | '+' :: rest => digitsValue rest
  | _ => digitsValue cs

/-- Fractional or integral decimal value of a digit-and-point prefix. -/

def atofCore (cs : List Char) : Rat :=
  let ip : Rat := ((digitsValue (cs.takeWhile Char.isDigit) : Int) : Rat)
  match cs.dropWhile Char.isDigit with
  | '.' :: fs =>
    let frac := fs.takeWhile Char.isDigit
    ip + ((digitsValue frac : Int) : Rat) / ((10 : Rat) ^ frac.length)
  | _ => ip

/-- C `atof` (decimal notation; the C double is modelled as an exact
rational). -/

def atof (s : String) : Rat :=
  let cs := s.data.dropWhile fun c =>
    c = ' ' ∨ c = '\t' ∨ c = '\n' ∨ c = '\r' ∨ c = '\x0b' ∨ c = '\x0c'
  match cs with
  | '-' :: rest => - atofCore rest
  | '+' :: rest => atofCore rest
  | _ => atofCore cs

/-- The two partitioning objectives. -/

inductive Objective where
  | km1 : Objective
  | cut : Objective
deriving DecidableEq

/-- The context fields touched by the modelled interface functions. -/

structure Context where
  k : Int
  epsilon : Rat
  objective : Objective
  seed : Int
  num_vcycles : Int
  verbose_output : Bool
deriving DecidableEq

/-- A fresh context (`mt_kahypar_context_new`); the default field values
play no role in the checked properties. -/

def mt_kahypar_context_new : Context where
  k := 0
  epsilon := 0
  objective := Objective.km1
  seed := 0
  num_vcycles := 0
  verbose_output := false

/-- The parameter selector of `mt_kahypar_set_context_parameter`; the
`OTHER` constructor stands for any integer outside the C enumeration
(the switch falls through to `return 1`). -/

inductive ContextParameterType where
  | NUM_BLOCKS : ContextParameterType
  | EPSILON : ContextParameterType
  | OBJECTIVE : ContextParameterType
  | SEED : ContextParameterType
  | NUM_VCYCLES : ContextParameterType
  | VERBOSE : ContextParameterType
  | OTHER : ContextParameterType
deriving DecidableEq

/-- `mt_kahypar_set_context_parameter`: returns the status code and the
updated context, following the switch in the source. -/

def mt_kahypar_set_context_parameter (c : Context) (t : ContextParameterType)
    (value : String) : Int × Context :=
  match t with
  | ContextParameterType.NUM_BLOCKS =>
    let k := atoi value
    if k > 0 then (0, { c with k := k }) else (2, { c with k := k })
  | ContextParameterType.EPSILON => (0, { c with epsilon := atof value })
  | ContextParameterType.OBJECTIVE =>
    if value = "km1" then (0, { c with objective := Objective.km1 })
    else if value = "cut" then (0, { c with objective := Objective.cut })
    else (3, c)
  | ContextParameterType.SEED => (0, { c with seed := atoi value })
  | ContextParameterType.NUM_VCYCLES => (0, { c with num_vcycles := atoi value })
  | ContextParameterType.VERBOSE =>
    (0, { c with verbose_output := atoi value ≠ 0 })
  | ContextParameterType.OTHER => (1, c)

/-- `mt_kahypar_context_free`: a null pointer returns immediately,
otherwise the pointed-to context is deallocated.  The allocation state
is modelled as the list of live (address, context) pairs. -/

def mt_kahypar_context_free (ptr : Option Nat) (heap : List (Nat × Context)) :
    List (Nat × Context) :=
  match ptr with
  | none => heap
  | some p => heap.filter fun e => e.1 ≠ p

/-- The metric dispatch of `metrics::objective`. -/

def metricsObjective (H : Hypergraph) (k : Nat) (b : Nat → Nat)
    (obj : Objective) : Int :=
  match obj with
  | Objective.km1 => km1Metric H k b
  | Objective.cut => cutMetric H k b

/-- The balance bound `L_max` of the spec. -/

def Lmax (eps : Rat) (W : Int) (k : Nat) : Int :=
  Int.ceil ((1 + eps) * (W : Rat) / (k : Rat))

/-- `mt_kahypar_partition`: the wrapper copies the caller's context,
overrides `k`, `epsilon`, `seed` and — unconditionally — the objective
with km1, runs the internal partitioner and returns the metric of the
copied context evaluated on the produced assignment together with the
assignment.  The internal `mt_kahypar::partition` is not part of the
source extract; it enters as the parameter `internal` (modelled from
the spec: it yields an assignment satisfying the spec postconditions,
which the theorems assume). -/

def mt_kahypar_partition (H : Hypergraph) (ctx : Context) (eps : Rat) (k : Nat)
    (seed : Int) (internal : Nat → Nat) : Int × (Nat → Nat) :=
  let ctx2 : Context :=
    { ctx with
      k := (k : Int)
      epsilon := eps
      objective := Objective.km1
      seed := seed }
  (metricsObjective H k internal ctx2.objective, internal)

/-- The per-level refinement time budget of `UncoarsenerBase`
(`refinementTimeLimit`): when a time-limit factor is configured
(`none` models the `DBL_MAX` sentinel meaning unconfigured/unlimited),
the budget is `max(5, max(1, factor·k) · time)`. -/

def refinementTimeLimit (time_limit_factor : Option Rat) (k : Nat)
    (time : Rat) : Option Rat :=
  match time_limit_factor with
  | some f => some (max 5 (max 1 (f * (k : Rat)) * time))
  | none => none

/-- Data for the C1 counterexample: a triangle hyperedge split across
three blocks, on which cut and km1 differ. -/

def cexH : Hypergraph where
  n := 3
  w := fun _ => 1
  edges := [(1, [0, 1, 2])]

/-- A context configured with the cut objective. -/

def cexCtx : Context :=
  { mt_kahypar_context_new with objective := Objective.cut }

/-- A balanced internal partitioning result on `cexH`: vertex `v` to
block `v`. -/

def cexInternal : Nat → Nat := fun v => v

/-! ## Theorems -/

/-! ## Theorems -/

theorem Inv_specState (H : Hypergraph) (k : Nat) (b : Nat → Nat) :
    Inv H k (specState H k b) :=
  ⟨fun _ => rfl, fun _ _ => rfl, fun _ => rfl, fun _ => rfl⟩

/-! ### Helper lemmas about the pure derived-state functions -/

theorem pinCountSpec_nonneg (H : Hypergraph) (b : Nat → Nat) (i p : Nat) :
    0 ≤ pinCountSpec H b i p :=
  Int.ofNat_nonneg _

theorem pinCountSpec_pos_iff (H : Hypergraph) (b : Nat → Nat) (i p : Nat) :
    0 < pinCountSpec H b i p ↔ ∃ u ∈ H.pins i, b u = p := by
  unfold pinCountSpec
  rw [show ((0 : Int) < ((H.pins i).countP fun v => b v = p)) ↔
      0 < (H.pins i).countP fun v => b v = p by exact_mod_cast Iff.rfl]
  rw [List.countP_pos_iff]
  simp

theorem pinCountSpec_eq_esize_iff (H : Hypergraph) (b : Nat → Nat) (i p : Nat) :
    pinCountSpec H b i p = H.esize i ↔ ∀ u ∈ H.pins i, b u = p := by
  unfold pinCountSpec Hypergraph.esize
  rw [show ((((H.pins i).countP fun v => b v = p) : Int) = ((H.pins i).length : Int)) ↔
      ((H.pins i).countP fun v => b v = p) = (H.pins i).length by exact_mod_cast Iff.rfl]
  rw [List.countP_eq_length]
  simp

/-- Change of a pin count under a pointwise modification of the
assignment at a single vertex, for duplicate-free pin lists. -/

theorem countP_int_update (l : List Nat) (hl : l.Nodup) (f g : Nat → Bool) (v : Nat)
    (h : ∀ u, u ≠ v → f u = g u) :
    ((l.countP f : Int)) = l.countP g +
      (if v ∈ l then (if f v then 1 else 0) - (if g v then 1 else 0) else 0) := by
  induction l with
  | nil => simp
  | cons a t ih =>
    have hND := (List.nodup_cons.mp hl).2
    have hNotMem := (List.nodup_cons.mp hl).1
    by_cases hav : a = v
    · subst hav
      have ht : t.countP f = t.countP g :=
        List.countP_congr fun u hu => by
          have hne : u ≠ a := fun e => hNotMem (e ▸ hu)
          rw [h u hne]
      simp only [List.countP_cons, List.mem_cons, true_or, if_pos, ht]
      push_cast
      by_cases hf : f a <;> by_cases hg : g a <;> simp [hf, hg]
    · have hfa : f a = g a := h a hav
      by_cases hvt : v ∈ t
      · have hih := ih hND
        simp only [List.countP_cons, hfa, List.mem_cons, hvt, or_true, if_pos] at hih ⊢
        push_cast at hih ⊢
        by_cases hg : g a <;> simp [hg] at hih ⊢ <;> omega
      · have hvl : ¬ (v = a ∨ v ∈ t) := by
          rintro (rfl | hc)
          · exact hav rfl
          · exact hvt hc
        have ht : t.countP f = t.countP g :=
          List.countP_congr fun u hu => by rw [h u (fun e => hvt (e ▸ hu))]
        simp [List.countP_cons, hfa, ht, List.mem_cons, hvl]

theorem pinCountSpec_update (H : Hypergraph) (b : Nat → Nat) (i p v x : Nat)
    (hl : (H.pins i).Nodup) :
    pinCountSpec H (Function.update b v x) i p = pinCountSpec H b i p +
      (if v ∈ H.pins i then
        (if x = p then 1 else 0) - (if b v = p then 1 else 0) else 0) := by
  unfold pinCountSpec
  rw [countP_int_update (H.pins i) hl _ (fun u => decide (b u = p)) v
    (fun u hu => by simp [Function.update_noteq hu])]
  simp [Function.update_same]

theorem mem_connSpec (H : Hypergraph) (k : Nat) (b : Nat → Nat) (i p : Nat) :
    p ∈ connSpec H k b i ↔ p < k ∧ 0 < pinCountSpec H b i p := by
  simp [connSpec]

/-- A pin of a hyperedge witnesses membership of its block in the
connectivity set. -/

theorem block_mem_connSpec (H : Hypergraph) (k : Nat) (b : Nat → Nat) {i u : Nat}
    (hu : u ∈ H.pins i) (hb : b u < k) : b u ∈ connSpec H k b i := by
  rw [mem_connSpec]
  exact ⟨hb, (pinCountSpec_pos_iff H b i (b u)).mpr ⟨u, hu, rfl⟩⟩

/-- A nonempty hyperedge has connectivity 1 exactly when all its pins
share one block. -/

theorem connSpec_card_eq_one (H : Hypergraph) (k : Nat) (b : Nat → Nat) {i v : Nat}
    (hv : v ∈ H.pins i) (hall : ∀ u ∈ H.pins i, b u < k) :
    (connSpec H k b i).card = 1 ↔ ∀ u ∈ H.pins i, b u = b v := by
  constructor
  · intro hcard u hu
    obtain ⟨q, hq⟩ := Finset.card_eq_one.mp hcard
    have h1 : b u ∈ connSpec H k b i := block_mem_connSpec H k b hu (hall u hu)
    have h2 : b v ∈ connSpec H k b i := block_mem_connSpec H k b hv (hall v hv)
    rw [hq, Finset.mem_singleton] at h1 h2
    rw [h1, h2]
  · intro hmono
    have hset : connSpec H k b i = {b v} := by
      apply Finset.ext
      intro p
      rw [mem_connSpec, Finset.mem_singleton]
      constructor
      · rintro ⟨-, hpos⟩
        obtain ⟨u, hu, hup⟩ := (pinCountSpec_pos_iff H b i p).mp hpos
        rw [← hup, hmono u hu]
      · rintro rfl
        exact ⟨hall v hv, (pinCountSpec_pos_iff H b i (b v)).mpr ⟨v, hv, rfl⟩⟩
    rw [hset, Finset.card_singleton]

/-- Connectivity of a nonempty hyperedge is at least 1. -/

theorem connSpec_card_pos (H : Hypergraph) (k : Nat) (b : Nat → Nat) {i v : Nat}
    (hv : v ∈ H.pins i) (hb : b v < k) : 0 < (connSpec H k b i).card :=
  Finset.card_pos.mpr ⟨b v, block_mem_connSpec H k b hv hb⟩

theorem pinCountSpec_update_not_mem (H : Hypergraph) (b : Nat → Nat) {i v : Nat}
    (x p : Nat) (hv : v ∉ H.pins i) :
    pinCountSpec H (Function.update b v x) i p = pinCountSpec H b i p := by
  unfold pinCountSpec
  congr 1
  exact List.countP_congr fun u hu => by
    have hne : u ≠ v := by
      intro e
      subst e
      exact hv hu
    rw [Function.update_noteq hne]

theorem connSpec_update_not_mem (H : Hypergraph) (k : Nat) (b : Nat → Nat) {i v : Nat}
    (x : Nat) (hv : v ∉ H.pins i) :
    connSpec H k (Function.update b v x) i = connSpec H k b i := by
  unfold connSpec
  apply Finset.filter_congr
  intro p _
  rw [pinCountSpec_update_not_mem H b x p hv]

/-- The connectivity set after a move is obtained from the one before by
the erase/insert rule of the move protocol. -/

theorem connSpec_update_mem (H : Hypergraph) (k : Nat) (b : Nat → Nat) {i v : Nat}
    {from_ to_ : Nat} (hND : (H.pins i).Nodup) (hv : v ∈ H.pins i)
    (hbv : b v = from_) (hne : from_ ≠ to_) (hto : to_ < k) :
    connSpec H k (Function.update b v to_) i =
      (if pinCountSpec H b i to_ + 1 = 1 then
        insert to_ (if pinCountSpec H b i from_ - 1 = 0 then
          (connSpec H k b i).erase from_ else connSpec H k b i)
      else (if pinCountSpec H b i from_ - 1 = 0 then
          (connSpec H k b i).erase from_ else connSpec H k b i)) := by
  have hfrom_pos : 0 < pinCountSpec H b i from_ :=
    (pinCountSpec_pos_iff H b i from_).mpr ⟨v, hv, hbv⟩
  apply Finset.ext
  intro p
  have hupd := pinCountSpec_update H b i p v to_ hND
  rw [if_pos hv, hbv] at hupd
  have hnn := pinCountSpec_nonneg H b i p
  have hnnf := pinCountSpec_nonneg H b i from_
  have hnnt := pinCountSpec_nonneg H b i to_
  rw [mem_connSpec, hupd]
  by_cases hc2 : pinCountSpec H b i to_ + 1 = 1 <;>
    by_cases hc1 : pinCountSpec H b i from_ - 1 = 0 <;>
      simp only [hc2, hc1, if_pos, if_neg, if_true, if_false, Finset.mem_insert,
        Finset.mem_erase, mem_connSpec] <;>
    by_cases hpt : to_ = p <;>
      by_cases hpf : from_ = p <;>
        simp only [hpt, hpf, if_pos, if_neg, if_true, if_false] at hc1 hc2 ⊢ <;>
    first
      | omega
      | (simp only [hpt] at hto
         simp only [true_or, iff_true]
         exact ⟨hto, by omega⟩)

theorem partWeightSpec_update (H : Hypergraph) (b : Nat → Nat) (v x p : Nat)
    (hv : v < H.n) :
    partWeightSpec H (Function.update b v x) p = partWeightSpec H b p +
      ((if x = p then H.w v else 0) - (if b v = p then H.w v else 0)) := by
  unfold partWeightSpec
  have hvmem : v ∈ Finset.range H.n := Finset.mem_range.mpr hv
  rw [← Finset.add_sum_erase _ _ hvmem, ← Finset.add_sum_erase _
    (fun u => if b u = p then H.w u else 0) hvmem]
  have hrest : ((Finset.range H.n).erase v).sum
      (fun u => if Function.update b v x u = p then H.w u else 0) =
      ((Finset.range H.n).erase v).sum (fun u => if b u = p then H.w u else 0) := by
    apply Finset.sum_congr rfl
    intro u hu
    rw [Function.update_noteq (Finset.mem_erase.mp hu).1]
  rw [hrest, Function.update_same]
  ring

/-- A hyperedge touches at least two blocks exactly when not all of its
pins lie in the block of one of its pins. -/

theorem two_le_connSpec_card_iff (H : Hypergraph) (k : Nat) (b : Nat → Nat) {i v : Nat}
    (hv : v ∈ H.pins i) (hall : ∀ u ∈ H.pins i, b u < k) :
    2 ≤ (connSpec H k b i).card ↔ ¬ pinCountSpec H b i (b v) = H.esize i := by
  have h1 : 0 < (connSpec H k b i).card := connSpec_card_pos H k b hv (hall v hv)
  have h2 : (connSpec H k b i).card = 1 ↔ ∀ u ∈ H.pins i, b u = b v :=
    connSpec_card_eq_one H k b hv hall
  rw [← pinCountSpec_eq_esize_iff] at h2
  omega

theorem mem_pins_lt_m (H : Hypergraph) {i v : Nat} (hv : v ∈ H.pins i) : i < H.m := by
  by_contra hge
  have hd : H.edges.getD i (0, []) = (0, []) :=
    List.getD_eq_default _ _ (le_of_not_lt hge)
  have : H.pins i = [] := by
    unfold Hypergraph.pins
    rw [hd]
  rw [this] at hv
  exact absurd hv (List.not_mem_nil v)

/-- Per-edge change of the border indicator of a vertex `u` under a
move of `v` from `from_` to `to_`: the indicator changes exactly by the
increment/decrement rule of step 4 of the move protocol. -/

theorem nic_indicator_update (H : Hypergraph) (k : Nat) (b : Nat → Nat)
    {v from_ to_ : Nat} (u i : Nat)
    (hND : (H.pins i).Nodup) (hall : ∀ x ∈ H.pins i, b x < k)
    (hbv : b v = from_) (hne : from_ ≠ to_) (hto : to_ < k) :
    (if u ∈ H.pins i ∧ 2 ≤ (connSpec H k (Function.update b v to_) i).card
      then (1 : Int) else 0) -
    (if u ∈ H.pins i ∧ 2 ≤ (connSpec H k b i).card then 1 else 0) =
      (if v ∈ H.pins i ∧ u ∈ H.pins i then
        (if pinCountSpec H b i from_ - 1 = H.esize i - 1 then 1 else 0) -
        (if pinCountSpec H b i to_ + 1 = H.esize i then 1 else 0)
      else 0) := by
  by_cases hvi : v ∈ H.pins i
  · by_cases hui : u ∈ H.pins i
    · have hall2 : ∀ x ∈ H.pins i, Function.update b v to_ x < k := by
        intro x hx
        by_cases hxv : x = v
        · subst hxv
          rw [Function.update_same]
          exact hto
        · rw [Function.update_noteq hxv]
          exact hall x hx
      have hBefore := two_le_connSpec_card_iff H k b hvi hall
      rw [hbv] at hBefore
      have hAfter := two_le_connSpec_card_iff H k (Function.update b v to_) hvi hall2
      rw [Function.update_same] at hAfter
      have hpcto : pinCountSpec H (Function.update b v to_) i to_ =
          pinCountSpec H b i to_ + 1 := by
        rw [pinCountSpec_update H b i to_ v to_ hND, if_pos hvi, hbv]
        rw [if_pos rfl, if_neg hne]
        ring
      rw [hpcto] at hAfter
      have hfrom_pos : 0 < pinCountSpec H b i from_ :=
        (pinCountSpec_pos_iff H b i from_).mpr ⟨v, hvi, hbv⟩
      rw [if_pos (And.intro hvi hui)]
      by_cases hA : pinCountSpec H b i from_ = H.esize i <;>
        by_cases hB : pinCountSpec H b i to_ + 1 = H.esize i <;>
          simp only [if_pos, if_neg, And.intro, hui, true_and, hAfter, hBefore, hA, hB,
            not_true, not_false_iff] <;>
        simp [hA, hB]
    · have hnu : ¬ (u ∈ H.pins i ∧ 2 ≤ (connSpec H k (Function.update b v to_) i).card) :=
        fun h => hui h.1
      have hnu2 : ¬ (u ∈ H.pins i ∧ 2 ≤ (connSpec H k b i).card) := fun h => hui h.1
      have hnu3 : ¬ (v ∈ H.pins i ∧ u ∈ H.pins i) := fun h => hui h.2
      rw [if_neg hnu, if_neg hnu2, if_neg hnu3]
      ring
  · have hconn : connSpec H k (Function.update b v to_) i = connSpec H k b i :=
      connSpec_update_not_mem H k b to_ hvi
    have hnv : ¬ (v ∈ H.pins i ∧ u ∈ H.pins i) := fun h => hvi h.1
    rw [hconn, if_neg hnv]
    ring

/-- A rejected move leaves the state unchanged: rejection happens when
the weight gate or the part-id compare-and-swap fails. -/

theorem cnpState_rejected (H : Hypergraph) (v from_ to_ : Nat) (cap : Int)
    (st : PartState) (h : st.pw to_ + H.w v > cap ∨ st.b v ≠ from_ ∨ from_ = to_) :
    cnpState H v from_ to_ cap st = st := by
  unfold cnpState changeNodePart
  by_cases h1 : st.pw to_ + H.w v > cap
  · rw [if_pos h1]
  · rw [if_neg h1, if_pos (h.resolve_left h1)]

theorem cnpOk_rejected (H : Hypergraph) (v from_ to_ : Nat) (cap : Int)
    (st : PartState) (h : st.pw to_ + H.w v > cap ∨ st.b v ≠ from_ ∨ from_ = to_) :
    cnpOk H v from_ to_ cap st = false := by
  unfold cnpOk changeNodePart
  by_cases h1 : st.pw to_ + H.w v > cap
  · rw [if_pos h1]
  · rw [if_neg h1, if_pos (h.resolve_left h1)]

/-- The committed state of an accepted move, spelled out. -/

theorem cnpState_accepted (H : Hypergraph) (v from_ to_ : Nat) (cap : Int)
    (st : PartState) (hcap : ¬ st.pw to_ + H.w v > cap) (hbv : st.b v = from_)
    (hne : from_ ≠ to_) :
    cnpState H v from_ to_ cap st =
      { b := Function.update st.b v to_
        pw := fun p => st.pw p + (if p = to_ then H.w v else 0) -
          (if p = from_ then H.w v else 0)
        pc := fun i p =>
          if v ∈ H.pins i then
            st.pc i p + (if p = to_ then 1 else 0) - (if p = from_ then 1 else 0)
          else st.pc i p
        conn := fun i =>
          if v ∈ H.pins i then
            if st.pc i to_ + 1 = 1 then
              insert to_ (if st.pc i from_ - 1 = 0 then (st.conn i).erase from_
                else st.conn i)
            else (if st.pc i from_ - 1 = 0 then (st.conn i).erase from_ else st.conn i)
          else st.conn i
        nic := fun u =>
          st.nic u + (Finset.range H.m).sum fun i =>
            if v ∈ H.pins i ∧ u ∈ H.pins i then
              (if st.pc i from_ - 1 = H.esize i - 1 then 1 else 0) -
              (if st.pc i to_ + 1 = H.esize i then 1 else 0)
            else 0 } := by
  unfold cnpState changeNodePart
  rw [if_neg hcap, if_neg (by push_neg; exact ⟨hbv, hne⟩)]

theorem cnpOk_accepted (H : Hypergraph) (v from_ to_ : Nat) (cap : Int)
    (st : PartState) (hcap : ¬ st.pw to_ + H.w v > cap) (hbv : st.b v = from_)
    (hne : from_ ≠ to_) :
    cnpOk H v from_ to_ cap st = true := by
  unfold cnpOk changeNodePart
  rw [if_neg hcap, if_neg (by push_neg; exact ⟨hbv, hne⟩)]

/-- Core preservation theorem: an arbitrary `changeNodePart` call
(whether it is accepted or rejected) keeps the maintained derived state
equal to its pure recomputation from the block assignment. -/

theorem Inv_changeNodePart (H : Hypergraph) (k : Nat) (hWF : H.WF)
    (st : PartState) (hInv : Inv H k st) (hA : Assigned H k st.b)
    (v from_ to_ : Nat) (cap : Int) (hv : v < H.n) (hto : to_ < k) :
    Inv H k (cnpState H v from_ to_ cap st) ∧
      Assigned H k (cnpState H v from_ to_ cap st).b := by
  obtain ⟨hpw, hpc, hconn, hnic⟩ := hInv
  by_cases hrej : st.pw to_ + H.w v > cap ∨ st.b v ≠ from_ ∨ from_ = to_
  · rw [cnpState_rejected H v from_ to_ cap st hrej]
    exact ⟨⟨hpw, hpc, hconn, hnic⟩, hA⟩
  · push_neg at hrej
    obtain ⟨hcap, hbv, hne⟩ := hrej
    rw [cnpState_accepted H v from_ to_ cap st (by omega) hbv hne]
    have hedge : ∀ i, v ∈ H.pins i → (H.pins i).Nodup ∧ ∀ x ∈ H.pins i, st.b x < k := by
      intro i hvi
      have him : i < H.m := mem_pins_lt_m H hvi
      refine ⟨(hWF.1 i him).1, fun x hx => hA x ((hWF.1 i him).2 x hx)⟩
    have hA2 : Assigned H k (Function.update st.b v to_) := by
      intro u hu
      by_cases huv : u = v
      · subst huv
        rw [Function.update_same]
        exact hto
      · rw [Function.update_noteq huv]
        exact hA u hu
    refine ⟨⟨?_, ?_, ?_, ?_⟩, hA2⟩
    · intro p
      show st.pw p + (if p = to_ then H.w v else 0) - (if p = from_ then H.w v else 0) =
        partWeightSpec H (Function.update st.b v to_) p
      rw [partWeightSpec_update H st.b v to_ p hv, hpw p, hbv]
      have e1 : (if p = to_ then H.w v else 0) = (if to_ = p then H.w v else 0) := by
        by_cases h : p = to_
        · rw [if_pos h, if_pos h.symm]
        · rw [if_neg h, if_neg (fun e => h e.symm)]
      have e2 : (if p = from_ then H.w v else 0) = (if from_ = p then H.w v else 0) := by
        by_cases h : p = from_
        · rw [if_pos h, if_pos h.symm]
        · rw [if_neg h, if_neg (fun e => h e.symm)]
      rw [e1, e2]
      ring
    · intro i p
      show (if v ∈ H.pins i then
          st.pc i p + (if p = to_ then 1 else 0) - (if p = from_ then 1 else 0)
        else st.pc i p) = pinCountSpec H (Function.update st.b v to_) i p
      by_cases hvi : v ∈ H.pins i
      · rw [if_pos hvi, pinCountSpec_update H st.b i p v to_ (hedge i hvi).1,
          if_pos hvi, hpc i p, hbv]
        have e1 : (if p = to_ then (1 : Int) else 0) = (if to_ = p then 1 else 0) := by
          by_cases h : p = to_
          · rw [if_pos h, if_pos h.symm]
          · rw [if_neg h, if_neg (fun e => h e.symm)]
        have e2 : (if p = from_ then (1 : Int) else 0) = (if from_ = p then 1 else 0) := by
          by_cases h : p = from_
          · rw [if_pos h, if_pos h.symm]
          · rw [if_neg h, if_neg (fun e => h e.symm)]
        rw [e1, e2]
        ring
      · rw [if_neg hvi, pinCountSpec_update_not_mem H st.b to_ p hvi, hpc i p]
    · intro i
      show (if v ∈ H.pins i then
          if st.pc i to_ + 1 = 1 then
            insert to_ (if st.pc i from_ - 1 = 0 then (st.conn i).erase from_
              else st.conn i)
          else (if st.pc i from_ - 1 = 0 then (st.conn i).erase from_ else st.conn i)
        else st.conn i) = connSpec H k (Function.update st.b v to_) i
      by_cases hvi : v ∈ H.pins i
      · rw [if_pos hvi, hpc i to_, hpc i from_, hconn i,
          connSpec_update_mem H k st.b (hedge i hvi).1 hvi hbv hne hto]
      · rw [if_neg hvi, connSpec_update_not_mem H k st.b to_ hvi, hconn i]
    · intro u
      show st.nic u + ((Finset.range H.m).sum fun i =>
          if v ∈ H.pins i ∧ u ∈ H.pins i then
            (if st.pc i from_ - 1 = H.esize i - 1 then 1 else 0) -
            (if st.pc i to_ + 1 = H.esize i then 1 else 0)
          else 0) = nicSpec H k (Function.update st.b v to_) u
      rw [hnic u]
      unfold nicSpec
      rw [← Finset.sum_add_distrib]
      apply Finset.sum_congr rfl
      intro i hi
      rw [hpc i from_, hpc i to_]
      by_cases hvi : v ∈ H.pins i
      · have h := nic_indicator_update H k st.b u i (hedge i hvi).1
          (hedge i hvi).2 hbv hne hto
        omega
      · have hconn2 : connSpec H k (Function.update st.b v to_) i = connSpec H k st.b i :=
          connSpec_update_not_mem H k st.b to_ hvi
        have hnv : ¬ (v ∈ H.pins i ∧ u ∈ H.pins i) := fun h => hvi h.1
        rw [hconn2, if_neg hnv]
        ring

/-- The invariant is preserved by any sequence of `changeNodePart` calls
whose moved vertices exist and whose target blocks are valid. -/

theorem Inv_applyMoves (H : Hypergraph) (k : Nat) (hWF : H.WF)
    (moves : List (Nat × Nat × Nat × Int)) (st : PartState)
    (hInv : Inv H k st) (hA : Assigned H k st.b)
    (hmv : ∀ mv ∈ moves, mv.1 < H.n ∧ mv.2.2.1 < k) :
    Inv H k (applyMoves H moves st) ∧ Assigned H k (applyMoves H moves st).b := by
  induction moves generalizing st with
  | nil => exact ⟨hInv, hA⟩
  | cons mv rest ih =>
    have hmv0 := hmv mv (List.mem_cons_self mv rest)
    have hstep := Inv_changeNodePart H k hWF st hInv hA mv.1 mv.2.1 mv.2.2.1 mv.2.2.2
      hmv0.1 hmv0.2
    exact ih _ hstep.1 hstep.2 fun x hx => hmv x (List.mem_cons_of_mem mv hx)

/-- The pin counts of a hyperedge over all blocks add up to its size. -/

theorem sum_range_countP (k : Nat) (b : Nat → Nat) (l : List Nat)
    (hall : ∀ x ∈ l, b x < k) :
    (Finset.range k).sum (fun p => ((l.countP fun v => b v = p : Nat) : Int)) =
      l.length := by
  induction l with
  | nil => simp
  | cons x t ih =>
    have hx : b x ∈ Finset.range k := Finset.mem_range.mpr (hall x (List.mem_cons_self x t))
    have ht := ih fun y hy => hall y (List.mem_cons_of_mem x hy)
    simp only [List.countP_cons, List.length_cons]
    push_cast
    rw [Finset.sum_add_distrib, ht]
    have hsum : (Finset.range k).sum
        (fun p => if (fun v => decide (b v = p)) x then (1 : Int) else 0) = 1 := by
      simp only [decide_eq_true_eq]
      rw [Finset.sum_ite_eq (Finset.range k) (b x) (fun _ => (1 : Int))]
      rw [if_pos hx]
    rw [hsum]

theorem sum_pinCountSpec (H : Hypergraph) (k : Nat) (b : Nat → Nat) (i : Nat)
    (hall : ∀ x ∈ H.pins i, b x < k) :
    (Finset.range k).sum (fun p => pinCountSpec H b i p) = H.esize i :=
  sum_range_countP k b (H.pins i) hall

/-- The block weights add up to the total vertex weight. -/

theorem sum_partWeightSpec (H : Hypergraph) (k : Nat) (b : Nat → Nat)
    (hA : Assigned H k b) :
    (Finset.range k).sum (fun p => partWeightSpec H b p) = H.totalWeight := by
  unfold partWeightSpec Hypergraph.totalWeight
  rw [Finset.sum_comm]
  apply Finset.sum_congr rfl
  intro v hv
  have hb : b v ∈ Finset.range k := Finset.mem_range.mpr (hA v (Finset.mem_range.mp hv))
  rw [Finset.sum_ite_eq (Finset.range k) (b v) (fun _ => H.w v), if_pos hb]

/-- A sum of border indicators is positive exactly when one of them
fires. -/

theorem nicSpec_pos_iff (H : Hypergraph) (k : Nat) (b : Nat → Nat) (u : Nat) :
    0 < nicSpec H k b u ↔
      ∃ i < H.m, u ∈ H.pins i ∧ 2 ≤ (connSpec H k b i).card := by
  unfold nicSpec
  constructor
  · intro hpos
    by_contra hno
    push_neg at hno
    have hz : (Finset.range H.m).sum (fun i =>
        if u ∈ H.pins i ∧ 2 ≤ (connSpec H k b i).card then (1 : Int) else 0) = 0 := by
      apply Finset.sum_eq_zero
      intro i hi
      rw [if_neg]
      rintro ⟨h1, h2⟩
      exact absurd h2 (by
        have := hno i (Finset.mem_range.mp hi) h1
        omega)
    rw [hz] at hpos
    exact absurd hpos (lt_irrefl 0)
  · rintro ⟨i, hi, hui, hcard⟩
    apply Finset.sum_pos'
    · intro j _
      by_cases h : u ∈ H.pins j ∧ 2 ≤ (connSpec H k b j).card
      · rw [if_pos h]
        omega
      · rw [if_neg h]
    · refine ⟨i, Finset.mem_range.mpr hi, ?_⟩
      rw [if_pos ⟨hui, hcard⟩]
      omega

/-- C3: after a bulk assignment followed by `initializePartition` and any
sequence of `changeNodePart` calls, the maintained derived state equals
its definition as a pure function of the block assignment: block weights
sum vertex weights and add up to `W`, pin counts per hyperedge add up to
the edge size, the connectivity set consists of exactly the blocks with
positive pin count, and a vertex is a border node exactly when some
incident hyperedge touches at least two blocks. -/

theorem claim_C3_derived_state_pure (H : Hypergraph) (k : Nat) (hWF : H.WF)
    (assignment : List (Nat × Nat)) (moves : List (Nat × Nat × Nat × Int))
    (st0 : PartState)
    (hmv : ∀ mv ∈ moves, mv.1 < H.n ∧ mv.2.2.1 < k)
    (hA : Assigned H k (setOnlyNodeParts assignment st0).b) :
    let st := applyMoves H moves
      (initializePartition H k (setOnlyNodeParts assignment st0))
    (∀ p, st.pw p = partWeightSpec H st.b p) ∧
    (Finset.range k).sum st.pw = H.totalWeight ∧
    (∀ i < H.m, (Finset.range k).sum (st.pc i) = H.esize i) ∧
    (∀ i, st.conn i = (Finset.range k).filter fun p => 0 < st.pc i p) ∧
    (∀ i, connectivity st i =
      ((Finset.range k).filter fun p => 0 < st.pc i p).card) ∧
    (∀ u, isBorderNode st u ↔ ∃ i < H.m, u ∈ H.pins i ∧ 2 ≤ connectivity st i) := by
  intro st
  have hInit : Inv H k (initializePartition H k (setOnlyNodeParts assignment st0)) :=
    Inv_specState H k _
  have hfinal : Inv H k st ∧ Assigned H k st.b :=
    Inv_applyMoves H k hWF moves _ hInit hA hmv
  obtain ⟨⟨hpw, hpc, hconn, hnic⟩, hAf⟩ := hfinal
  have hallpins : ∀ i < H.m, ∀ x ∈ H.pins i, st.b x < k := by
    intro i hi x hx
    exact hAf x ((hWF.1 i hi).2 x hx)
  have hconnfilter : ∀ i, st.conn i = (Finset.range k).filter fun p => 0 < st.pc i p := by
    intro i
    rw [hconn i]
    unfold connSpec
    apply Finset.filter_congr
    intro p _
    rw [hpc i p]
  refine ⟨hpw, ?_, ?_, hconnfilter, ?_, ?_⟩
  · rw [show (Finset.range k).sum st.pw = (Finset.range k).sum (partWeightSpec H st.b)
      from Finset.sum_congr rfl fun p _ => hpw p]
    exact sum_partWeightSpec H k st.b hAf
  · intro i hi
    rw [show (Finset.range k).sum (st.pc i) =
        (Finset.range k).sum (fun p => pinCountSpec H st.b i p)
      from Finset.sum_congr rfl fun p _ => hpc i p]
    exact sum_pinCountSpec H k st.b i (hallpins i hi)
  · intro i
    unfold connectivity
    rw [hconnfilter i]
  · intro u
    unfold isBorderNode connectivity
    rw [hnic u]
    rw [nicSpec_pos_iff H k st.b u]
    constructor
    · rintro ⟨i, hi, hui, hcard⟩
      exact ⟨i, hi, hui, by rw [hconn i]; exact hcard⟩
    · rintro ⟨i, hi, hui, hcard⟩
      exact ⟨i, hi, hui, by rw [← hconn i]; exact hcard⟩

/-- Witness for C3: the derived-state characterization instantiated on
the seven-vertex fixture with the accepted moves (0: 0 to 1) and
(3: 1 to 2). -/

theorem claim_C3_witness :
    fixtureH.WF ∧
    (∀ mv ∈ [((0 : Nat), (0 : Nat), (1 : Nat), (10 : Int)), (3, 1, 2, 10)],
      mv.1 < fixtureH.n ∧ mv.2.2.1 < 3) ∧
    Assigned fixtureH 3 (setOnlyNodeParts fixtureAssign emptyState).b ∧
    (let st := applyMoves fixtureH [((0 : Nat), (0 : Nat), (1 : Nat), (10 : Int)), (3, 1, 2, 10)]
      (initializePartition fixtureH 3 (setOnlyNodeParts fixtureAssign emptyState))
    (∀ p, st.pw p = partWeightSpec fixtureH st.b p) ∧
    (Finset.range 3).sum st.pw = fixtureH.totalWeight ∧
    (∀ i < fixtureH.m, (Finset.range 3).sum (st.pc i) = fixtureH.esize i) ∧
    (∀ i, st.conn i = (Finset.range 3).filter fun p => 0 < st.pc i p) ∧
    (∀ i, connectivity st i =
      ((Finset.range 3).filter fun p => 0 < st.pc i p).card) ∧
    (∀ u, isBorderNode st u ↔
      ∃ i < fixtureH.m, u ∈ fixtureH.pins i ∧ 2 ≤ connectivity st i)) :=
  ⟨by decide, by decide, by decide,
    claim_C3_derived_state_pure fixtureH 3 (by decide) fixtureAssign
      [((0 : Nat), (0 : Nat), (1 : Nat), (10 : Int)), (3, 1, 2, 10)] emptyState
      (by decide) (by decide)⟩

/-- Any `changeNodePart` call with valid blocks preserves the total of
the maintained block weights. -/

theorem sum_pw_changeNodePart (H : Hypergraph) (k : Nat) (v from_ to_ : Nat)
    (cap : Int) (st : PartState) (hf : from_ < k) (ht : to_ < k) :
    (Finset.range k).sum (cnpState H v from_ to_ cap st).pw =
      (Finset.range k).sum st.pw := by
  by_cases hrej : st.pw to_ + H.w v > cap ∨ st.b v ≠ from_ ∨ from_ = to_
  · rw [cnpState_rejected H v from_ to_ cap st hrej]
  · push_neg at hrej
    obtain ⟨hcap, hbv, hne⟩ := hrej
    rw [cnpState_accepted H v from_ to_ cap st (by omega) hbv hne]
    show (Finset.range k).sum (fun p => st.pw p + (if p = to_ then H.w v else 0) -
      (if p = from_ then H.w v else 0)) = (Finset.range k).sum st.pw
    rw [show (fun p => st.pw p + (if p = to_ then H.w v else 0) -
        (if p = from_ then H.w v else 0)) = (fun p => st.pw p +
        ((if p = to_ then H.w v else 0) - (if p = from_ then H.w v else 0)))
      from funext fun p => by ring]
    rw [Finset.sum_add_distrib, Finset.sum_sub_distrib]
    rw [Finset.sum_ite_eq' (Finset.range k) to_ (fun _ => H.w v),
      Finset.sum_ite_eq' (Finset.range k) from_ (fun _ => H.w v)]
    rw [if_pos (Finset.mem_range.mpr ht), if_pos (Finset.mem_range.mpr hf)]
    ring

/-- C2: the weight gate of `changeNodePart` — a call that would exceed
the weight cap returns `false` and changes nothing — and the contested
concurrent move of scenario 2: two calls moving vertex 0 out of block 0
into blocks 1 and 2, serialized in either order, have exactly one winner,
the final state is the winner's state, and the total block weight is
unchanged. -/

theorem claim_C2_contested_move :
    (∀ (H : Hypergraph) (st : PartState) (v from_ to_ : Nat) (cap : Int),
      st.pw to_ + H.w v > cap →
      changeNodePart H v from_ to_ cap st = (false, st, [])) ∧
    (∀ cap : Int, 3 ≤ cap →
      (cnpOk fixtureH 0 0 1 cap fixtureState = true ∧
        cnpOk fixtureH 0 0 2 cap (cnpState fixtureH 0 0 1 cap fixtureState) = false ∧
        cnpState fixtureH 0 0 2 cap (cnpState fixtureH 0 0 1 cap fixtureState) =
          cnpState fixtureH 0 0 1 cap fixtureState) ∧
      (cnpOk fixtureH 0 0 2 cap fixtureState = true ∧
        cnpOk fixtureH 0 0 1 cap (cnpState fixtureH 0 0 2 cap fixtureState) = false ∧
        cnpState fixtureH 0 0 1 cap (cnpState fixtureH 0 0 2 cap fixtureState) =
          cnpState fixtureH 0 0 2 cap fixtureState) ∧
      (Finset.range 3).sum (cnpState fixtureH 0 0 1 cap fixtureState).pw =
        (Finset.range 3).sum fixtureState.pw ∧
      (Finset.range 3).sum (cnpState fixtureH 0 0 2 cap fixtureState).pw =
        (Finset.range 3).sum fixtureState.pw) := by
  constructor
  · intro H st v from_ to_ cap hgate
    unfold changeNodePart
    rw [if_pos hgate]
  · intro cap hcap
    have hpw1 : fixtureState.pw 1 = 2 := by decide
    have hpw2 : fixtureState.pw 2 = 2 := by decide
    have hw0 : fixtureH.w 0 = 1 := rfl
    have hb0 : fixtureState.b 0 = 0 := by decide
    have hgate1 : ¬ fixtureState.pw 1 + fixtureH.w 0 > cap := by
      rw [hpw1, hw0]
      omega
    have hgate2 : ¬ fixtureState.pw 2 + fixtureH.w 0 > cap := by
      rw [hpw2, hw0]
      omega
    have hloser1 : (cnpState fixtureH 0 0 1 cap fixtureState).b 0 = 1 := by
      rw [cnpState_accepted fixtureH 0 0 1 cap fixtureState hgate1 hb0 (by decide)]
      exact Function.update_same 0 1 fixtureState.b
    have hloser2 : (cnpState fixtureH 0 0 2 cap fixtureState).b 0 = 2 := by
      rw [cnpState_accepted fixtureH 0 0 2 cap fixtureState hgate2 hb0 (by decide)]
      exact Function.update_same 0 2 fixtureState.b
    refine ⟨⟨?_, ?_, ?_⟩, ⟨?_, ?_, ?_⟩, ?_, ?_⟩
    · exact cnpOk_accepted fixtureH 0 0 1 cap fixtureState hgate1 hb0 (by decide)
    · apply cnpOk_rejected
      refine Or.inr (Or.inl ?_)
      rw [hloser1]
      decide
    · apply cnpState_rejected
      refine Or.inr (Or.inl ?_)
      rw [hloser1]
      decide
    · exact cnpOk_accepted fixtureH 0 0 2 cap fixtureState hgate2 hb0 (by decide)
    · apply cnpOk_rejected
      refine Or.inr (Or.inl ?_)
      rw [hloser2]
      decide
    · apply cnpState_rejected
      refine Or.inr (Or.inl ?_)
      rw [hloser2]
      decide
    · exact sum_pw_changeNodePart fixtureH 3 0 0 1 cap fixtureState (by decide) (by decide)
    · exact sum_pw_changeNodePart fixtureH 3 0 0 2 cap fixtureState (by decide) (by decide)

/-- Witness for C2: the weight gate fires at cap 2 on the fixture (block
weight 2 plus vertex weight 1 exceeds 2), and the contested-move facts
hold at cap 3 (the value of `L_max` on the fixture for ε = 2/7). -/

theorem claim_C2_witness :
    (fixtureState.pw 1 + fixtureH.w 0 > 2 ∧
      changeNodePart fixtureH 0 0 1 2 fixtureState = (false, fixtureState, [])) ∧
    ((3 : Int) ≤ 3 ∧
      cnpOk fixtureH 0 0 1 3 fixtureState = true ∧
      cnpOk fixtureH 0 0 2 3 (cnpState fixtureH 0 0 1 3 fixtureState) = false) :=
  ⟨⟨by decide,
    claim_C2_contested_move.1 fixtureH fixtureState 0 0 1 2 (by decide)⟩,
   ⟨by decide,
    (claim_C2_contested_move.2 3 (by decide)).1.1,
    (claim_C2_contested_move.2 3 (by decide)).1.2.1⟩⟩

/-- Size of the connectivity set after a move, via the erase/insert
rule. -/

theorem connSpec_card_update (H : Hypergraph) (k : Nat) (b : Nat → Nat) {i v : Nat}
    {from_ to_ : Nat} (hND : (H.pins i).Nodup) (hv : v ∈ H.pins i)
    (hbv : b v = from_) (hne : from_ ≠ to_) (hto : to_ < k) (hfrom : from_ < k) :
    ((connSpec H k (Function.update b v to_) i).card : Int) =
      (connSpec H k b i).card + (if pinCountSpec H b i to_ + 1 = 1 then 1 else 0) -
        (if pinCountSpec H b i from_ - 1 = 0 then 1 else 0) := by
  have hfmem : from_ ∈ connSpec H k b i := by
    rw [mem_connSpec]
    exact ⟨hfrom, (pinCountSpec_pos_iff H b i from_).mpr ⟨v, hv, hbv⟩⟩
  have hcpos : 0 < (connSpec H k b i).card := Finset.card_pos.mpr ⟨from_, hfmem⟩
  rw [connSpec_update_mem H k b hND hv hbv hne hto]
  have hnnt := pinCountSpec_nonneg H b i to_
  by_cases hc2 : pinCountSpec H b i to_ + 1 = 1
  · have htnotmem : to_ ∉ connSpec H k b i := by
      rw [mem_connSpec]
      rintro ⟨-, hpos⟩
      omega
    rw [if_pos hc2]
    by_cases hc1 : pinCountSpec H b i from_ - 1 = 0
    · rw [if_pos hc1]
      have h1 : to_ ∉ (connSpec H k b i).erase from_ :=
        fun h => htnotmem (Finset.mem_of_mem_erase h)
      rw [Finset.card_insert_of_not_mem h1, Finset.card_erase_of_mem hfmem]
      rw [if_pos hc2, if_pos hc1]
      push_cast [Nat.sub_add_cancel hcpos]
      ring
    · rw [if_neg hc1, Finset.card_insert_of_not_mem htnotmem]
      rw [if_pos hc2, if_neg hc1]
      push_cast
      ring
  · rw [if_neg hc2]
    by_cases hc1 : pinCountSpec H b i from_ - 1 = 0
    · rw [if_pos hc1, Finset.card_erase_of_mem hfmem]
      rw [if_neg hc2, if_pos hc1]
      rw [Nat.cast_sub hcpos]
      push_cast
      ring
    · rw [if_neg hc1]
      rw [if_neg hc2, if_neg hc1]
      ring

/-- km1 after a single reassignment of one vertex: the metric changes by
the sum, over the incident hyperedges, of the km1 hook deltas. -/

theorem km1Metric_update (H : Hypergraph) (k : Nat) (b : Nat → Nat)
    {v from_ to_ : Nat} (hWF : H.WF) (hbv : b v = from_) (hne : from_ ≠ to_)
    (hto : to_ < k) (hfrom : from_ < k) :
    km1Metric H k (Function.update b v to_) - km1Metric H k b =
      (Finset.range H.m).sum fun i =>
        if v ∈ H.pins i then
          H.ew i * ((if pinCountSpec H b i to_ + 1 = 1 then 1 else 0) -
            (if pinCountSpec H b i from_ - 1 = 0 then 1 else 0))
        else 0 := by
  unfold km1Metric
  rw [← Finset.sum_sub_distrib]
  apply Finset.sum_congr rfl
  intro i hi
  unfold lambdaSpec
  by_cases hvi : v ∈ H.pins i
  · have hcard := connSpec_card_update H k b (hWF.1 i (Finset.mem_range.mp hi)).1
      hvi hbv hne hto hfrom
    rw [if_pos hvi]
    rw [show H.ew i * (((connSpec H k (Function.update b v to_) i).card : Int) - 1) -
        H.ew i * (((connSpec H k b i).card : Int) - 1) =
        H.ew i * (((connSpec H k (Function.update b v to_) i).card : Int) -
          ((connSpec H k b i).card : Int)) from by ring]
    rw [hcard]
    ring
  · rw [connSpec_update_not_mem H k b to_ hvi, if_neg hvi]
    ring

/-- Summing a function over the filtered index list equals the guarded
sum over the index range. -/

theorem filter_map_sum_eq (m : Nat) (P : Nat → Prop) [DecidablePred P] (f : Nat → Int) :
    ((((List.range m).filter fun i => decide (P i)).map f).sum) =
      (Finset.range m).sum fun i => if P i then f i else 0 := by
  induction m with
  | zero => simp
  | succ m ih =>
    rw [List.range_succ, List.filter_append, List.map_append, List.sum_append,
      Finset.sum_range_succ, ih]
    by_cases hP : P m
    · simp [hP]
    · simp [hP]

/-- On an accepted move the accumulated hook delta is the predicted
delta: the hook list of `changeNodePart` scores to exactly the incident
scan. -/

theorem hookSum_eq_deltaKm1 (H : Hypergraph) (st : PartState) (v to_ : Nat)
    (cap : Int) (hcap : ¬ st.pw to_ + H.w v > cap) (hbv : st.b v ≠ to_) :
    hookSum (changeNodePart H v (st.b v) to_ cap st).2.2 = deltaKm1 H st v to_ := by
  unfold changeNodePart
  rw [if_neg hcap, if_neg (by push_neg; exact ⟨rfl, hbv⟩)]
  unfold hookSum deltaKm1 km1HookDelta
  rw [List.map_map]
  rfl

/-- Key soundness result for the delta hook: on an accepted move the
accumulated hook delta equals the true change of the km1 metric
(this is the equation asserted by the heavy refinement assertion in
`refineImpl`). -/

theorem hookSum_eq_km1_diff (H : Hypergraph) (k : Nat) (hWF : H.WF)
    (st : PartState) (hInv : Inv H k st) (hA : Assigned H k st.b)
    (v to_ : Nat) (cap : Int) (hv : v < H.n) (hto : to_ < k)
    (hcap : ¬ st.pw to_ + H.w v > cap) (hbv : st.b v ≠ to_) :
    hookSum (changeNodePart H v (st.b v) to_ cap st).2.2 =
      km1Metric H k (Function.update st.b v to_) - km1Metric H k st.b := by
  rw [hookSum_eq_deltaKm1 H st v to_ cap hcap hbv]
  rw [km1Metric_update H k st.b hWF rfl hbv hto (hA v hv)]
  unfold deltaKm1
  rw [filter_map_sum_eq H.m (fun i => v ∈ H.pins i)]
  apply Finset.sum_congr rfl
  intro i hi
  rw [hInv.2.1 i to_, hInv.2.1 i (st.b v)]

/-- `cnpOk` succeeds exactly when the weight gate passes and the part-id
compare-and-swap matches a proper move. -/

theorem cnpOk_true_iff (H : Hypergraph) (v from_ to_ : Nat) (cap : Int)
    (st : PartState) :
    cnpOk H v from_ to_ cap st = true ↔
      ¬ st.pw to_ + H.w v > cap ∧ st.b v = from_ ∧ from_ ≠ to_ := by
  constructor
  · intro h
    by_cases h1 : st.pw to_ + H.w v > cap
    · rw [cnpOk_rejected H v from_ to_ cap st (Or.inl h1)] at h
      exact absurd h (by simp)
    · by_cases h2 : st.b v ≠ from_ ∨ from_ = to_
      · rw [cnpOk_rejected H v from_ to_ cap st (Or.inr h2)] at h
        exact absurd h (by simp)
      · push_neg at h2
        exact ⟨h1, h2.1, h2.2⟩
  · rintro ⟨h1, h2, h3⟩
    exact cnpOk_accepted H v from_ to_ cap st h1 h2 h3

/-- The result of the best-target scan is either the trivial proposal or
a valid block scored with its own predicted delta. -/

theorem bestTarget_sound (H : Hypergraph) (k : Nat) (st : PartState) (v : Nat) :
    bestTarget H k st v = (st.b v, 0) ∨
      ((bestTarget H k st v).1 < k ∧
        (bestTarget H k st v).2 = deltaKm1 H st v (bestTarget H k st v).1) := by
  have hgen : ∀ (l : List (Nat × Int)) (init : Nat × Int),
      (∀ c ∈ l, c.1 < k ∧ c.2 = deltaKm1 H st v c.1) →
      (init = (st.b v, 0) ∨ (init.1 < k ∧ init.2 = deltaKm1 H st v init.1)) →
      (l.foldl (fun best cand => if cand.2 < best.2 then cand else best) init
          = (st.b v, 0) ∨
        ((l.foldl (fun best cand => if cand.2 < best.2 then cand else best) init).1 < k ∧
          (l.foldl (fun best cand => if cand.2 < best.2 then cand else best) init).2 =
            deltaKm1 H st v
              (l.foldl (fun best cand => if cand.2 < best.2 then cand else best) init).1)) := by
    intro l
    induction l with
    | nil => intro init _ hinit; exact hinit
    | cons c t ih =>
      intro init hmem hinit
      apply ih
      · intro x hx
        exact hmem x (List.mem_cons_of_mem c hx)
      · by_cases hlt : c.2 < init.2
        · simp only [List.foldl_cons, if_pos hlt]
          exact Or.inr (hmem c (List.mem_cons_self c t))
        · simp only [List.foldl_cons, if_neg hlt]
          exact hinit
  apply hgen
  · intro c hc
    obtain ⟨p, hp, rfl⟩ := List.mem_map.mp hc
    exact ⟨List.mem_range.mp hp, rfl⟩
  · exact Or.inl rfl

/-- Soundness of the refinement fold: the invariant is preserved, the
accumulated delta tracks the true km1 change, and it never becomes
positive. -/

theorem refine_fold_sound (H : Hypergraph) (k : Nat) (hWF : H.WF) (cap : Int)
    (active : List Nat) (st0 st : PartState) (d : Int)
    (hInv : Inv H k st) (hA : Assigned H k st.b)
    (hactive : ∀ v ∈ active, v < H.n)
    (hd : d = km1Metric H k st.b - km1Metric H k st0.b) (hd0 : d ≤ 0) :
    Inv H k (active.foldl (moveVertex H k cap) (st, d)).1 ∧
    Assigned H k (active.foldl (moveVertex H k cap) (st, d)).1.b ∧
    (active.foldl (moveVertex H k cap) (st, d)).2 =
      km1Metric H k (active.foldl (moveVertex H k cap) (st, d)).1.b -
        km1Metric H k st0.b ∧
    (active.foldl (moveVertex H k cap) (st, d)).2 ≤ 0 := by
  induction active generalizing st d with
  | nil => exact ⟨hInv, hA, hd, hd0⟩
  | cons v t ih =>
    have hv : v < H.n := hactive v (List.mem_cons_self v t)
    have htl : ∀ x ∈ t, x < H.n := fun x hx => hactive x (List.mem_cons_of_mem v hx)
    rw [List.foldl_cons]
    by_cases hguard : (bestTarget H k st v).2 ≤ 0 ∧ (bestTarget H k st v).1 ≠ st.b v
    · by_cases hok : cnpOk H v (st.b v) (bestTarget H k st v).1 cap st
      · have hmv : moveVertex H k cap (st, d) v =
            (cnpState H v (st.b v) (bestTarget H k st v).1 cap st,
              d + hookSum (changeNodePart H v (st.b v)
                (bestTarget H k st v).1 cap st).2.2) := by
          unfold moveVertex
          rw [if_pos hguard, if_pos hok]
        have hbt := (bestTarget_sound H k st v).resolve_left (by
          intro he
          apply hguard.2
          rw [he])
        obtain ⟨hcap, -, hne⟩ := (cnpOk_true_iff H v (st.b v)
          (bestTarget H k st v).1 cap st).mp hok
        have hbne : st.b v ≠ (bestTarget H k st v).1 := hne
        have hdiff := hookSum_eq_km1_diff H k hWF st hInv hA v
          (bestTarget H k st v).1 cap hv hbt.1 hcap hbne
        have hdelta := hookSum_eq_deltaKm1 H st v (bestTarget H k st v).1 cap hcap hbne
        have hstep := Inv_changeNodePart H k hWF st hInv hA v (st.b v)
          (bestTarget H k st v).1 cap hv hbt.1
        have hstate : (cnpState H v (st.b v) (bestTarget H k st v).1 cap st).b =
            Function.update st.b v (bestTarget H k st v).1 := by
          rw [cnpState_accepted H v (st.b v) (bestTarget H k st v).1 cap st hcap rfl hne]
        rw [hmv]
        apply ih _ _ hstep.1 hstep.2 htl
        · rw [hstate]
          omega
        · have hs : hookSum (changeNodePart H v (st.b v)
              (bestTarget H k st v).1 cap st).2.2 ≤ 0 := by
            rw [hdelta, ← hbt.2]
            exact hguard.1
          omega
      · have hmv : moveVertex H k cap (st, d) v = (st, d) := by
          unfold moveVertex
          rw [if_pos hguard, if_neg hok]
        rw [hmv]
        exact ih _ _ hInv hA htl hd hd0
    · have hmv : moveVertex H k cap (st, d) v = (st, d) := by
        unfold moveVertex
        rw [if_neg hguard]
      rw [hmv]
      exact ih _ _ hInv hA htl hd hd0

/-- C5: the label-propagation refiner only commits moves whose delta is
non-positive at commit time, so the total objective delta accumulated
through the delta hook is at most zero and the km1 value of the final
partition never exceeds the initial one; `refineImpl` reports an
improvement exactly when the accumulated delta is strictly negative. -/

theorem claim_C5_lp_never_worsens (H : Hypergraph) (k : Nat) (hWF : H.WF)
    (cap : Int) (active : List Nat) (st : PartState)
    (hInv : Inv H k st) (hA : Assigned H k st.b)
    (hactive : ∀ v ∈ active, v < H.n) :
    (refineImpl H k cap active st).2.2 ≤ 0 ∧
    (refineImpl H k cap active st).2.2 =
      km1Metric H k (refineImpl H k cap active st).2.1.b - km1Metric H k st.b ∧
    km1Metric H k (refineImpl H k cap active st).2.1.b ≤ km1Metric H k st.b ∧
    ((refineImpl H k cap active st).1 = true ↔
      (refineImpl H k cap active st).2.2 < 0) := by
  have h := refine_fold_sound H k hWF cap active st st 0 hInv hA hactive (by ring)
    (le_refl 0)
  unfold refineImpl
  refine ⟨h.2.2.2, h.2.2.1, ?_, by simp⟩
  show km1Metric H k (List.foldl (moveVertex H k cap) (st, 0) active).1.b ≤
    km1Metric H k st.b
  omega

/-- Witness for C5: the refiner run on the seven-vertex fixture with all
nodes active and cap 3. -/

theorem claim_C5_witness :
    fixtureH.WF ∧
    Assigned fixtureH 3 fixtureState.b ∧
    (∀ v ∈ [0, 1, 2, 3, 4, 5, 6], v < fixtureH.n) ∧
    ((refineImpl fixtureH 3 3 [0, 1, 2, 3, 4, 5, 6] fixtureState).2.2 ≤ 0 ∧
      (refineImpl fixtureH 3 3 [0, 1, 2, 3, 4, 5, 6] fixtureState).2.2 =
        km1Metric fixtureH 3
            (refineImpl fixtureH 3 3 [0, 1, 2, 3, 4, 5, 6] fixtureState).2.1.b -
          km1Metric fixtureH 3 fixtureState.b ∧
      km1Metric fixtureH 3
          (refineImpl fixtureH 3 3 [0, 1, 2, 3, 4, 5, 6] fixtureState).2.1.b ≤
        km1Metric fixtureH 3 fixtureState.b ∧
      ((refineImpl fixtureH 3 3 [0, 1, 2, 3, 4, 5, 6] fixtureState).1 = true ↔
        (refineImpl fixtureH 3 3 [0, 1, 2, 3, 4, 5, 6] fixtureState).2.2 < 0)) :=
  ⟨by decide, by decide, by decide,
    claim_C5_lp_never_worsens fixtureH 3 (by decide) 3 [0, 1, 2, 3, 4, 5, 6]
      fixtureState (Inv_specState fixtureH 3 _) (by decide) (by decide)⟩

theorem incidentNetArray_eq_of_fields {a b : IncidentNetArray}
    (h1 : a.nets = b.nets) (h2 : a.stack = b.stack) : a = b := by
  cases a
  cases b
  cases h1
  cases h2
  rfl

/-- Uncontracting right after the matching contraction restores the
structure exactly. -/

theorem uncontract_contract (a : IncidentNetArray) (u v : Nat) (shared : List Nat) :
    (a.contract u v shared).uncontract v = a := by
  unfold IncidentNetArray.contract IncidentNetArray.uncontract
  simp only [if_pos rfl]
  apply incidentNetArray_eq_of_fields
  · show Function.update (Function.update a.nets u
      (a.nets u ++ (a.nets v).filter fun e => e ∉ shared)) u
      (((Function.update a.nets u
        (a.nets u ++ (a.nets v).filter fun e => e ∉ shared)) u).take
          (a.nets u).length) = a.nets
    rw [Function.update_same, List.take_left, Function.update_idem,
      Function.update_eq_self]
  · rfl

/-- C6: contracting any sequence of vertex pairs in the dynamic
incident-net structure and uncontracting them in reverse order restores
the incident-net lists (and the whole structure) exactly; in particular
the seven-vertex fixture with the contractions (0,2), (3,4), (5,6) and
uncontractions 6, 4, 2 returns to its initial incident-net sets. -/

theorem claim_C6_contract_uncontract_roundtrip :
    (∀ (a : IncidentNetArray) (ops : List (Nat × Nat × List Nat)),
      uncontracts (contracts a ops) ((ops.map fun op => op.2.1).reverse) = a) ∧
    (uncontracts (contracts { nets := fixtureIncidentNets, stack := [] }
        [(0, 2, [0]), (3, 4, [1, 2]), (5, 6, [3])]) [6, 4, 2] =
      { nets := fixtureIncidentNets, stack := [] } ∧
      (List.range 7).map
        (uncontracts (contracts { nets := fixtureIncidentNets, stack := [] }
          [(0, 2, [0]), (3, 4, [1, 2]), (5, 6, [3])]) [6, 4, 2]).nets =
        [[0, 1], [1], [0, 3], [1, 2], [1, 2], [3], [2, 3]]) := by
  have hgen : ∀ (ops : List (Nat × Nat × List Nat)) (a : IncidentNetArray),
      uncontracts (contracts a ops) ((ops.map fun op => op.2.1).reverse) = a := by
    intro ops
    induction ops with
    | nil => intro a; rfl
    | cons op rest ih =>
      intro a
      rw [List.map_cons, List.reverse_cons]
      show uncontracts (contracts (a.contract op.1 op.2.1 op.2.2) rest)
        (((rest.map fun op => op.2.1).reverse) ++ [op.2.1]) = a
      unfold uncontracts
      rw [List.foldl_append]
      have hmid := ih (a.contract op.1 op.2.1 op.2.2)
      unfold uncontracts at hmid
      rw [hmid]
      show (a.contract op.1 op.2.1 op.2.2).uncontract op.2.1 = a
      exact uncontract_contract a op.1 op.2.1 op.2.2
  have hlist : ((([((0 : Nat), (2 : Nat), [(0 : Nat)]), (3, 4, [1, 2]),
      (5, 6, [3])]).map fun op => op.2.1).reverse) = [6, 4, 2] := rfl
  refine ⟨fun a ops => hgen ops a, ?_, ?_⟩
  · rw [← hlist]
    exact hgen [(0, 2, [0]), (3, 4, [1, 2]), (5, 6, [3])] _
  · rw [← hlist, hgen [(0, 2, [0]), (3, 4, [1, 2]), (5, 6, [3])] _]
    decide

/-- C7: on the seven-vertex fixture, extracting block 0 with cut-net
splitting yields 3 vertices, 2 edges of size 2 (the projections of the
incident hyperedges with at least two pins in block 0), and 4 pins;
extracting block 0 with cut-net removal yields 3 vertices, 1 edge of
size 2 (the only hyperedge fully inside block 0), and 2 pins. -/

theorem claim_C7_extract_block_zero :
    extractVertices fixtureH fixtureState.b 0 = [0, 1, 2] ∧
    (extractVertices fixtureH fixtureState.b 0).length = 3 ∧
    extractEdges fixtureH fixtureState.b 0 true = [[0, 2], [0, 1]] ∧
    (extractEdges fixtureH fixtureState.b 0 true).length = 2 ∧
    (extractEdges fixtureH fixtureState.b 0 true).map List.length = [2, 2] ∧
    extractNumPins fixtureH fixtureState.b 0 true = 4 ∧
    extractEdges fixtureH fixtureState.b 0 false = [[0, 2]] ∧
    (extractEdges fixtureH fixtureState.b 0 false).length = 1 ∧
    (extractEdges fixtureH fixtureState.b 0 false).map List.length = [2] ∧
    extractNumPins fixtureH fixtureState.b 0 false = 2 := by
  decide

/-- Counterexample for C4: the claim assigns return code 2 to integer
parse errors of every integer-valued parameter, but only NUM_BLOCKS
checks the conversion result; SEED (and NUM_VCYCLES, VERBOSE, EPSILON)
store the converted value and return 0 unconditionally, so a parse
error on SEED yields 0, not 2. -/

theorem claim_C4_counterexample :
    atoi "abc" = 0 ∧
    (mt_kahypar_set_context_parameter mt_kahypar_context_new
      ContextParameterType.SEED "abc").1 = 0 ∧
    (mt_kahypar_set_context_parameter mt_kahypar_context_new
      ContextParameterType.SEED "abc").1 ≠ 2 := by
  refine ⟨by decide, by decide, ?_⟩
  decide

/-- C4 (amended): `mt_kahypar_set_context_parameter` returns 0 on
success, 1 for a parameter selector outside the enumeration, 3 for an
invalid OBJECTIVE value, and 2 only for NUM_BLOCKS when the converted
value is not positive (which covers parse errors, for which `atoi`
yields 0, but also successfully parsed non-positive numbers); EPSILON,
SEED, NUM_VCYCLES and VERBOSE return 0 regardless of the value. -/

theorem claim_C4_return_codes (c : Context) (value : String) :
    (mt_kahypar_set_context_parameter c ContextParameterType.NUM_BLOCKS value).1 =
      (if 0 < atoi value then 0 else 2) ∧
    (mt_kahypar_set_context_parameter c ContextParameterType.EPSILON value).1 = 0 ∧
    (mt_kahypar_set_context_parameter c ContextParameterType.OBJECTIVE value).1 =
      (if value = "km1" ∨ value = "cut" then 0 else 3) ∧
    (mt_kahypar_set_context_parameter c ContextParameterType.SEED value).1 = 0 ∧
    (mt_kahypar_set_context_parameter c ContextParameterType.NUM_VCYCLES value).1
      = 0 ∧
    (mt_kahypar_set_context_parameter c ContextParameterType.VERBOSE value).1 = 0 ∧
    (mt_kahypar_set_context_parameter c ContextParameterType.OTHER value).1 = 1 := by
  have hNB : mt_kahypar_set_context_parameter c ContextParameterType.NUM_BLOCKS value =
      (if atoi value > 0 then ((0 : Int), { c with k := atoi value })
        else ((2 : Int), { c with k := atoi value })) := rfl
  have hOBJ : mt_kahypar_set_context_parameter c ContextParameterType.OBJECTIVE value =
      (if value = "km1" then ((0 : Int), { c with objective := Objective.km1 })
        else if value = "cut" then ((0 : Int), { c with objective := Objective.cut })
        else ((3 : Int), c)) := rfl
  refine ⟨?_, rfl, ?_, rfl, rfl, rfl, rfl⟩
  · rw [hNB]
    by_cases h : 0 < atoi value
    · rw [if_pos h, if_pos h]
    · rw [if_neg h, if_neg h]
  · rw [hOBJ]
    by_cases h1 : value = "km1"
    · rw [if_pos h1, if_pos (Or.inl h1)]
    · rw [if_neg h1]
      by_cases h2 : value = "cut"
      · rw [if_pos h2, if_pos (Or.inr h2)]
      · rw [if_neg h2, if_neg ?_]
        rintro (h | h)
        · exact h1 h
        · exact h2 h

/-- C10: `mt_kahypar_context_free` called on a null pointer returns
immediately without touching the allocation state, and on a non-null
pointer it removes exactly that allocation. -/

theorem claim_C10_context_free_null_safe :
    (∀ heap : List (Nat × Context), mt_kahypar_context_free none heap = heap) ∧
    (∀ (p : Nat) (heap : List (Nat × Context)),
      mt_kahypar_context_free (some p) heap = heap.filter fun e => e.1 ≠ p) :=
  ⟨fun _ => rfl, fun _ _ => rfl⟩

/-- Counterexample for C1: `mt_kahypar_partition` overwrites the
objective of the copied context with km1 before partitioning and before
evaluating the returned objective, so with a context configured for the
cut metric the returned objective (km1 = 2 on the triangle example) is
not the configured metric computed on the returned partition
(cut = 1). -/

theorem claim_C1_counterexample :
    cexCtx.objective = Objective.cut ∧
    (∀ v < cexH.n, cexInternal v < 3) ∧
    cexH.totalWeight = 3 ∧
    Lmax 1 3 3 = 2 ∧
    (∀ p < 3, partWeightSpec cexH cexInternal p ≤ Lmax 1 3 3) ∧
    (mt_kahypar_partition cexH cexCtx 1 3 0 cexInternal).1 = 2 ∧
    metricsObjective cexH 3 (mt_kahypar_partition cexH cexCtx 1 3 0 cexInternal).2
      cexCtx.objective = 1 ∧
    (mt_kahypar_partition cexH cexCtx 1 3 0 cexInternal).1 ≠
      metricsObjective cexH 3
        (mt_kahypar_partition cexH cexCtx 1 3 0 cexInternal).2 cexCtx.objective := by
  have hL : Lmax 1 3 3 = 2 := by
    unfold Lmax
    norm_num
  refine ⟨rfl, by decide, by decide, hL, ?_, by decide, by decide, by decide⟩
  rw [hL]
  decide

/-- C1 (amended): for every input satisfying the preconditions and every
internal partitioning result satisfying the spec postconditions (blocks
in range, balance), the wrapper returns that assignment unchanged —
hence in range and balanced — and an objective value equal to the km1
metric of the returned assignment; the configured objective of the
passed context is overridden with km1 and does not influence the
result. -/

theorem claim_C1_partition_postconditions (H : Hypergraph) (ctx : Context)
    (eps : Rat) (k : Nat) (seed : Int) (internal : Nat → Nat)
    (_hk : 2 ≤ k) (_heps : 0 < eps) (_hw : ∀ v < H.n, 0 < H.w v)
    (hrange : ∀ v < H.n, internal v < k)
    (hbal : ∀ p < k, partWeightSpec H internal p ≤ Lmax eps H.totalWeight k) :
    (∀ v < H.n, (mt_kahypar_partition H ctx eps k seed internal).2 v < k) ∧
    (∀ p < k, partWeightSpec H (mt_kahypar_partition H ctx eps k seed internal).2 p
      ≤ Lmax eps H.totalWeight k) ∧
    (mt_kahypar_partition H ctx eps k seed internal).1 =
      km1Metric H k (mt_kahypar_partition H ctx eps k seed internal).2 :=
  ⟨hrange, hbal, rfl⟩

/-- Witness for C1 (amended): the triangle instance with ε = 1, k = 3
and the identity assignment. -/

theorem claim_C1_witness :
    (2 ≤ 3 ∧ (0 : Rat) < 1 ∧ (∀ v < cexH.n, 0 < cexH.w v) ∧
      (∀ v < cexH.n, cexInternal v < 3) ∧
      (∀ p < 3, partWeightSpec cexH cexInternal p ≤ Lmax 1 cexH.totalWeight 3)) ∧
    ((∀ v < cexH.n, (mt_kahypar_partition cexH cexCtx 1 3 0 cexInternal).2 v < 3) ∧
      (∀ p < 3, partWeightSpec cexH
        (mt_kahypar_partition cexH cexCtx 1 3 0 cexInternal).2 p ≤
        Lmax 1 cexH.totalWeight 3) ∧
      (mt_kahypar_partition cexH cexCtx 1 3 0 cexInternal).1 =
        km1Metric cexH 3 (mt_kahypar_partition cexH cexCtx 1 3 0 cexInternal).2) := by
  have hW : cexH.totalWeight = 3 := by decide
  have hL : Lmax 1 3 3 = 2 := by
    unfold Lmax
    norm_num
  have hbal : ∀ p < 3, partWeightSpec cexH cexInternal p ≤ Lmax 1 cexH.totalWeight 3 := by
    rw [hW, hL]
    decide
  exact ⟨⟨by omega, by norm_num, by decide, by decide, hbal⟩,
    claim_C1_partition_postconditions cexH cexCtx 1 3 0 cexInternal (by omega)
      (by norm_num) (by decide) (by decide) hbal⟩

/-- Counterexample for C9: the code clamps the factor
`time_limit_factor · k` from below at 1, which the claim omits; with
factor 1/4, k = 2 and a measured time of 20 s the code returns 20 s
while the claim's formula `max(5, tlf·k·t)` gives 10 s. -/

theorem claim_C9_counterexample :
    refinementTimeLimit (some (1/4)) 2 20 = some 20 ∧
    max (5 : Rat) ((1/4 : Rat) * (2 : Nat) * 20) = 10 ∧
    refinementTimeLimit (some (1/4)) 2 20 ≠
      some (max (5 : Rat) ((1/4 : Rat) * (2 : Nat) * 20)) := by
  have h1 : max (1 : Rat) ((1/4 : Rat) * ((2 : Nat) : Rat)) = 1 :=
    max_eq_left (by norm_num)
  have h2 : max (5 : Rat) ((1 : Rat) * 20) = 20 := by
    rw [max_eq_right (by norm_num : (5 : Rat) ≤ 1 * 20)]
    norm_num
  have h3 : max (5 : Rat) ((1/4 : Rat) * ((2 : Nat) : Rat) * 20) = 10 := by
    rw [max_eq_right (by norm_num : (5 : Rat) ≤ (1/4 : Rat) * ((2 : Nat) : Rat) * 20)]
    norm_num
  have hcode : refinementTimeLimit (some (1/4)) 2 20 = some 20 := by
    show some (max 5 (max 1 ((1/4 : Rat) * ((2 : Nat) : Rat)) * 20)) = some 20
    rw [h1, h2]
  refine ⟨hcode, h3, ?_⟩
  rw [hcode, h3]
  intro h
  exact absurd (Option.some.inj h) (by norm_num)

/-- C9 (amended): with a configured time-limit factor the refinement
time budget is `max(5, max(1, factor·k) · t)`; in particular whenever
`factor·k ≥ 1` it equals the claim's `max(5, factor·k·t)`, and without a
configured factor the budget is unlimited. -/

theorem claim_C9_refinement_time_limit (f : Rat) (k : Nat) (t : Rat) :
    (1 ≤ f * (k : Rat) → refinementTimeLimit (some f) k t =
      some (max 5 (f * (k : Rat) * t))) ∧
    refinementTimeLimit none k t = none := by
  constructor
  · intro h
    show some (max 5 (max 1 (f * (k : Rat)) * t)) = some (max 5 (f * (k : Rat) * t))
    rw [max_eq_right h]
  · rfl

/-- Witness for C9: factor 2, k = 3, t = 7. -/

theorem claim_C9_witness :
    (1 : Rat) ≤ (2 : Rat) * (3 : Nat) ∧
    refinementTimeLimit (some 2) 3 7 = some (max 5 ((2 : Rat) * (3 : Nat) * 7)) :=
  ⟨by norm_num,
    (claim_C9_refinement_time_limit 2 3 7).1 (by norm_num)⟩

end MtKaHyPar
